import Mathlib

/-!
Verification development for the `perfect` crate (src/perfect.rs), a
hybrid hashtable built from a two-hash-function minimal perfect hash.

The Rust code is shallowly embedded: `uint` is modelled as `Nat` together
with an explicit machine word bound `WORD = 2 ^ 64` (the crate targets a
64-bit `uint`); multiplication on `uint` wraps silently in the Rust of
this era, so products are reduced `% WORD`; `checked_add(..).expect(..)`
aborts the task on overflow, so addition is modelled with an `Option`
that is `none` exactly when the unreduced sum reaches `WORD`; `x % 0`
fails the task in Rust, so modular reduction by zero is modelled as
`none` as well.  A key is modelled by its byte encoding, a `List Nat`
(each entry a byte value); the random number generator is modelled as a
stream `Nat → Nat` of draws, indexed in the order the program consumes
them.
-/

namespace Perfect

/-- Machine word bound: the crate's `uint` is a 64-bit integer. -/
def WORD : Nat := 2 ^ 64

/-- Embedding of `uint::checked_add`: `none` exactly when the true sum
does not fit in a machine word. -/
def checked_add (a b : Nat) : Option Nat :=
  if a + b < WORD then some (a + b) else none

/-- Embedding of `struct PerfectHashState` (perfect.rs lines 28-37). -/
structure PerfectHashState where
  t1 : List Nat
  t2 : List Nat
  maxLength : Nat
  n : Nat
  m : Nat
  i : Nat
  u : Nat
  v : Nat
deriving Repr, DecidableEq

/-- The loop body of `PerfectHashState::write` (perfect.rs lines 41-45):
bytes already zipped with their table indices; each product `t[i] * b`
wraps silently at the word size, each running sum is `checked_add`ed and
the task fails (modelled `none`) on overflow. -/
def writeAccum (t1 t2 : List Nat) : List (Nat × Nat) → Nat → Nat → Option (Nat × Nat)
  | [], u, v => some (u, v)
  | (b, idx) :: rest, u, v =>
    match checked_add u ((t1.getD idx 0 * b) % WORD) with
    | none => none
    | some u' =>
      match checked_add v ((t2.getD idx 0 * b) % WORD) with
      | none => none
      | some v' => writeAccum t1 t2 rest u' v'

/-- Embedding of `PerfectHashState::write` (perfect.rs lines 40-47):
the byte stream is zipped with `range(self.i, self.max_length)`, the
sums are accumulated, and the cursor becomes
`min(self.i + bytes.len(), self.max_length)`. -/
def write (st : PerfectHashState) (bytes : List Nat) : Option PerfectHashState :=
  match writeAccum st.t1 st.t2 (bytes.zip (List.range' st.i (st.maxLength - st.i))) st.u st.v with
  | none => none
  | some p =>
    some { st with u := p.1, v := p.2, i := min (st.i + bytes.length) st.maxLength }

/-- Embedding of `PerfectHashState::new` (perfect.rs lines 51-62):
`max_length` is the length of `t1`. -/
def PerfectHashState.new (t1 t2 : List Nat) (n m : Nat) : PerfectHashState :=
  { t1 := t1, t2 := t2, maxLength := t1.length, n := n, m := m, i := 0, u := 0, v := 0 }

/-- Embedding of `PerfectHashState::get_u` (perfect.rs lines 64-66):
`self.u % self.n`; reduction by `n = 0` fails the task, modelled `none`. -/
def PerfectHashState.get_u (st : PerfectHashState) : Option Nat :=
  if st.n = 0 then none else some (st.u % st.n)

/-- Embedding of `PerfectHashState::get_v` (perfect.rs lines 68-70). -/
def PerfectHashState.get_v (st : PerfectHashState) : Option Nat :=
  if st.n = 0 then none else some (st.v % st.n)

/-- Embedding of `ByteCounter` (perfect.rs lines 73-91): hashing a key
into a `ByteCounter` counts the bytes of its encoding. -/
def byteCount (k : List Nat) : Nat := k.length

/-- Embedding of the `max_length` computation of `HashMap::new`
(perfect.rs lines 106-110): the maximum byte count over the known keys,
`none` for an empty key list (`Iterator::max` on an empty iterator).
This binding is computed by the code but never used afterwards. -/
def newMaxLength (keys : List (List Nat)) : Option Nat :=
  (keys.map byteCount).max?

/-- Embedding of `n = 2*m + m/12` (perfect.rs line 118), with
`m = known_vals.len()` (line 114). -/
def newN (keys : List (List Nat)) : Nat :=
  2 * keys.length + keys.length / 12

/-- Embedding of `gen_table` (perfect.rs lines 93-95):
`rng.gen_iter().map(|x| x % n).take(m)`.  The iterator is lazy, so with
`m` draws requested only `m` reductions `% n` are evaluated; each one
fails the task when `n = 0` (modelled `none`).  `rands` is the draw
stream and `start` the position of its next unconsumed draw. -/
def genTableFrom (rands : Nat → Nat) (n : Nat) : Nat → Nat → Option (List Nat)
  | 0, _ => some []
  | mm + 1, start =>
    if n = 0 then none
    else
      match genTableFrom rands n mm (start + 1) with
      | none => none
      | some rest => some ((rands start % n) :: rest)

/-- Hashing one key on a trial (perfect.rs lines 133-136): a fresh
`PerfectHashState`, one absorb of the key's byte encoding, then
`get_u`/`get_v` give the pair `(f1, f2)`. -/
def hashPair (t1 t2 : List Nat) (n m : Nat) (k : List Nat) : Option (Nat × Nat) :=
  match write (PerfectHashState.new t1 t2 n m) k with
  | none => none
  | some st =>
    match st.get_u, st.get_v with
    | some a, some b => some (a, b)
    | _, _ => none

/-- Embedding of the graph-building loop body (perfect.rs lines
132-140): for each key in order, `insert_vertex(f1, ())`,
`insert_vertex(f2, ())`, `insert_directed_edge(f1, f2, ())`.  The edge
list records each `insert_directed_edge` call in order; note the edge
label passed by the code is the unit value `()`. -/
def trialEdges (t1 t2 : List Nat) (n m : Nat) : List (List Nat) → Option (List (Nat × Nat × Unit))
  | [] => some []
  | k :: ks =>
    match hashPair t1 t2 n m k with
    | none => none
    | some p =>
      match trialEdges t1 t2 n m ks with
      | none => none
      | some rest => some ((p.1, p.2, ()) :: rest)

/-- The unordered-pair projection of an edge list (the graph's edges as
vertex pairs, forgetting the unit labels). -/
def pairsOf (es : List (Nat × Nat × Unit)) : List (Nat × Nat) :=
  es.map (fun e => (e.1, e.2.1))

/-- The unordered-pair projection of a labelled edge list. -/
def epairs (E : List (Nat × Nat × Nat)) : List (Nat × Nat) :=
  E.map (fun e => (e.1, e.2.1))

/-- Vertex set of the built graph: the endpoints of its edges (the
external graph's `insert_vertex` is idempotent, "insert if absent", so
the vertex set is the deduplicated endpoint list). -/
def vertsOf (es : List (Nat × Nat)) : List Nat :=
  (es.flatMap (fun e => [e.1, e.2])).dedup

/-- Adjacency (as an unordered relation) in the built graph. -/
def adjB (es : List (Nat × Nat)) (a b : Nat) : Bool :=
  es.any (fun e => (e.1 == a && e.2 == b) || (e.1 == b && e.2 == a))

/-- A self-loop: some key hashed to the same bucket twice. -/
def hasSelfLoopB (es : List (Nat × Nat)) : Bool :=
  es.any (fun e => e.1 == e.2)

/-- A Boolean chain check: consecutive elements of `x :: l` related. -/
def chainB (f : Nat → Nat → Bool) : Nat → List Nat → Bool
  | _, [] => true
  | x, y :: ys => f x y && chainB f y ys

/-- Whether a vertex list is a simple cycle of the graph: at least three
distinct vertices, consecutive ones adjacent, and the last adjacent to
the first. -/
def isCycleListB (es : List (Nat × Nat)) (l : List Nat) : Bool :=
  decide (3 ≤ l.length) && decide l.Nodup &&
    (match l with
     | [] => false
     | x :: xs => chainB (adjB es) x (xs ++ [x]))

/-- Existence of a cycle among the (necessarily non-isolated) vertices
of the built graph: a self-loop, or a simple cycle on at least three of
the graph's vertices. -/
def cycleB (es : List (Nat × Nat)) : Bool :=
  hasSelfLoopB es ||
    ((vertsOf es).sublists.filter (fun s => decide (3 ≤ s.length))).any
      (fun s => s.permutations'.any (isCycleListB es))

/-- The canonical unordered form of a vertex pair. -/
def unorder (p : Nat × Nat) : Nat × Nat :=
  if p.1 ≤ p.2 then p else (p.2, p.1)

/-- Whether two edges at different positions of the list share the same
unordered vertex pair (a duplicate edge: two different keys producing
the identical `(f1, f2)` pair). -/
def hasDupPairB : List (Nat × Nat) → Bool
  | [] => false
  | p :: rest => rest.any (fun q => decide (unorder q = unorder p)) || hasDupPairB rest

/-- Modelled from the spec: `is_acyclic` of the external `graph` crate
(the crate's source is not part of this repository; only its interface
is used at perfect.rs line 144).  Per spec section 4.2 the trial's
"valid" signal is false exactly when (a) the graph has a cycle among
non-isolated vertices or (b) a duplicate edge (same unordered vertex
pair) was produced for two different keys. -/
def isAcyclicSpec (es : List (Nat × Nat)) : Bool :=
  !(cycleB es) && !(hasDupPairB es)

/-- One iteration of the construction loop (perfect.rs lines 126-147):
generate `t1` and `t2` freshly (trial `t` consumes the draws
`2*m*t .. 2*m*t + 2*m - 1` of the stream), then build the key graph.
Returns the tables and the edge list; `none` models a task failure
inside the trial. -/
def newTrial (keys : List (List Nat)) (rands : Nat → Nat) (t : Nat) :
    Option (List Nat × List Nat × List (Nat × Nat × Unit)) :=
  match genTableFrom rands (newN keys) keys.length (2 * keys.length * t) with
  | none => none
  | some t1 =>
    match genTableFrom rands (newN keys) keys.length (2 * keys.length * t + keys.length) with
    | none => none
    | some t2 =>
      match trialEdges t1 t2 (newN keys) keys.length keys with
      | none => none
      | some es => some (t1, t2, es)

/-- Embedding of the retry loop of `HashMap::new` (perfect.rs lines
124-148).  The Rust loop is unbounded; `fuel` is an arbitrary bound on
the number of iterations observed, so `none` at every `fuel` models a
loop that never exits (or a task failure inside a trial).  On success
the result carries the accepted tables, the accepted edge list, and
`iters` (the trial counter after the `iters += 1` at line 142). -/
def newLoop (keys : List (List Nat)) (rands : Nat → Nat) : Nat → Nat →
    Option (List Nat × List Nat × List (Nat × Nat × Unit) × Nat)
  | 0, _ => none
  | fuel + 1, t =>
    match newTrial keys rands t with
    | none => none
    | some (t1, t2, es) =>
      if isAcyclicSpec (pairsOf es) then some (t1, t2, es, t + 1)
      else newLoop keys rands fuel (t + 1)

/-- The spec's reference value of the hash (spec section 4.1, stated in
the spec's words for comparison with the code's accumulator):
`h(key) = (Σ t[i] * byte_i) mod n` for `i` over the first
`min(len, L)` bytes, with exact (unbounded) arithmetic. -/
def specAccumulator (t bytes : List Nat) (n : Nat) : Nat :=
  (((List.range (min bytes.length t.length)).map
    (fun i => t.getD i 0 * bytes.getD i 0)).sum) % n

/-- A sequence of `write` calls (multiple absorbs of byte chunks). -/
def writeSeq (st : PerfectHashState) : List (List Nat) → Option PerfectHashState
  | [] => some st
  | c :: cs =>
    match write st c with
    | none => none
    | some st' => writeSeq st' cs

/-- Modelled from the spec: the slot-index tagging of the key graph's
edges (spec section 4.2; the displacement assignment and everything
after the acyclicity test is absent from `HashMap::new`, which stops at
perfect.rs line 150 without populating or returning the table).  Each
key's edge is tagged with the key's 0-based index in iteration order:
edge `j` of the built edge list gets slot index `start + j`. -/
def specEdgesFrom (start : Nat) : List (Nat × Nat × Unit) → List (Nat × Nat × Nat)
  | [] => []
  | e :: rest => (e.1, e.2.1, start) :: specEdgesFrom (start + 1) rest

/-- The labelled key graph: edges `(f1, f2, slot)` with slot indices
assigned in key order starting from 0. -/
def specEdges (es : List (Nat × Nat × Unit)) : List (Nat × Nat × Nat) :=
  specEdgesFrom 0 es

/-- Whether a vertex has been given a displacement value (the traversal
has visited it). -/
def assignedB (g : List (Nat × Nat)) (x : Nat) : Bool :=
  (List.lookup x g).isSome

/-- The displacement value of a vertex; vertices never visited keep 0
(spec section 4.3: they are never dereferenced by any key). -/
def gval (g : List (Nat × Nat)) (x : Nat) : Nat :=
  (List.lookup x g).getD 0

/-- A traversal edge with exactly one visited endpoint, oriented as
(visited endpoint, unvisited endpoint, slot). -/
def findFrontier (E : List (Nat × Nat × Nat)) (g : List (Nat × Nat)) :
    Option (Nat × Nat × Nat) :=
  match E.find? (fun e => assignedB g e.1 && !assignedB g e.2.1) with
  | some e => some (e.1, e.2.1, e.2.2)
  | none =>
    match E.find? (fun e => assignedB g e.2.1 && !assignedB g e.1) with
    | some e => some (e.2.1, e.1, e.2.2)
    | none => none

/-- Modelled from the spec: one step of the displacement assignment
solver of spec section 4.3 (absent from the code; `HashMap::new` stops
after the acyclicity test).  If some edge reaches a new vertex `v` from
a visited vertex `u` via the edge with slot `s`, set
`g[v] = (s - g[u]) mod m` (written in `Nat` as
`(s + (m - g[u] % m)) % m`, the same residue).  Otherwise pick an
arbitrary (the first) vertex of an untraversed component as its root
and set `g[root] = 0`.  When every edge endpoint is visited the
traversal is complete (`none`). -/
def solveStep (m : Nat) (E : List (Nat × Nat × Nat)) (g : List (Nat × Nat)) :
    Option (List (Nat × Nat)) :=
  match findFrontier E g with
  | some f => some ((f.2.1, (f.2.2 + (m - gval g f.1 % m)) % m) :: g)
  | none =>
    match E.find? (fun e => !assignedB g e.1 || !assignedB g e.2.1) with
    | some e =>
      if assignedB g e.1 then some ((e.2.1, 0) :: g) else some ((e.1, 0) :: g)
    | none => none

/-- Modelled from the spec: the solver's traversal loop, driven for at
most `fuel` propagation steps. -/
def solveLoop (m : Nat) (E : List (Nat × Nat × Nat)) : Nat → List (Nat × Nat) → List (Nat × Nat)
  | 0, g => g
  | fuel + 1, g =>
    match solveStep m E g with
    | none => g
    | some g' => solveLoop m E fuel g'

/-- Modelled from the spec: the displacement assignment solver of spec
section 4.3, run to completion (one new vertex is visited per step, so
the number of graph vertices bounds the number of steps). -/
def solve (m : Nat) (E : List (Nat × Nat × Nat)) : List (Nat × Nat) :=
  solveLoop m E (vertsOf (epairs E)).length []

/-- The slot of each key under the displacement assignment: for edge
`(f1, f2, s)` of the labelled key graph, the key's slot is
`(g[f1] + g[f2]) mod m` (spec section 4.4). -/
def slotsOf (m : Nat) (g : List (Nat × Nat)) (E : List (Nat × Nat × Nat)) : List Nat :=
  E.map (fun e => (gval g e.1 + gval g e.2.1) % m)

/-- Modelled from the spec: building the perfect slot table (spec
section 4.4): an array of `m` empty slots, then each key's entry stored
at its slot. -/
def buildTable (m : Nat) (entries : List (Nat × (List Nat × Nat))) :
    List (Option (List Nat × Nat)) :=
  entries.foldl (fun t e => t.set e.1 (some e.2)) (List.replicate m none)

/-- Modelled from the spec: the slot computation of a lookup (spec
section 4.4): `f1`, `f2` via the stored seed tables, then
`(g[f1] + g[f2]) mod m`; `m = 0` has no slots. -/
def slotOfKey (t1 t2 : List Nat) (n m : Nat) (g : List Nat) (k : List Nat) : Option Nat :=
  match hashPair t1 t2 n m k with
  | none => none
  | some p => if m = 0 then none else some ((g.getD p.1 0 + g.getD p.2 0) % m)

/-- Modelled from the spec: perfect-table lookup with its mandatory
equality check (spec section 4.4), returning the hit slot and value;
with the degenerate-case clause of spec section 6 (`m = 0`: the table
is empty and every operation routes through the backup only, so an
empty table reports a miss without hashing). -/
def perfectHit (t1 t2 : List Nat) (n m : Nat) (g : List Nat)
    (table : List (Option (List Nat × Nat))) (k : List Nat) : Option (Nat × Nat) :=
  if table.isEmpty then none else
  match slotOfKey t1 t2 n m g k with
  | none => none
  | some s =>
    match table.getD s none with
    | none => none
    | some kv => if kv.1 = k then some (s, kv.2) else none

/-- Modelled from the spec: lookup in the lazily created backup map
(spec section 4.5); `none` when the backup was never created. -/
def backupGet (backup : Option (List (List Nat × Nat))) (k : List Nat) : Option Nat :=
  match backup with
  | none => none
  | some bs => List.lookup k bs

/-- Modelled from the spec: `get` of the dispatcher (spec section 4.5):
try the perfect table, on miss delegate to the backup if it exists. -/
def dispatchGet (t1 t2 : List Nat) (n m : Nat) (g : List Nat)
    (table : List (Option (List Nat × Nat))) (backup : Option (List (List Nat × Nat)))
    (k : List Nat) : Option Nat :=
  match perfectHit t1 t2 n m g table k with
  | some hit => some hit.2
  | none => backupGet backup k

/-- Modelled from the spec: insertion into the backup map, creating it
lazily on first need; returns the new backup and the previous value. -/
def backupInsert (backup : Option (List (List Nat × Nat))) (k : List Nat) (v : Nat) :
    Option (List (List Nat × Nat)) × Option Nat :=
  (some ((k, v) :: (backup.getD []).filter (fun kv => !(kv.1 == k))),
    List.lookup k (backup.getD []))

/-- Modelled from the spec: `insert` of the dispatcher (spec section
4.5): a key passing the perfect table's equality check is updated in
place; any other key goes to the (lazily created) backup. -/
def dispatchInsert (t1 t2 : List Nat) (n m : Nat) (g : List Nat)
    (table : List (Option (List Nat × Nat))) (backup : Option (List (List Nat × Nat)))
    (k : List Nat) (v : Nat) :
    List (Option (List Nat × Nat)) × Option (List (List Nat × Nat)) × Option Nat :=
  match perfectHit t1 t2 n m g table k with
  | some hit => (table.set hit.1 (some (k, v)), backup, some hit.2)
  | none =>
    match backupInsert backup k v with
    | (backup', old) => (table, backup', old)

/-- Modelled from the spec: deletion from the backup map (spec section
4.5): a standard delete when the backup exists, otherwise a no-op
returning nothing; also returns the previous value. -/
def backupRemove (backup : Option (List (List Nat × Nat))) (k : List Nat) :
    Option (List (List Nat × Nat)) × Option Nat :=
  match backup with
  | none => (none, none)
  | some bs => (some (bs.filter (fun kv => !(kv.1 == k))), List.lookup k bs)

/-- Modelled from the spec: `remove` of the dispatcher (spec section
4.5): a known key's slot is cleared in place (logical removal); other
keys are deleted from the backup when it exists. -/
def dispatchRemove (t1 t2 : List Nat) (n m : Nat) (g : List Nat)
    (table : List (Option (List Nat × Nat))) (backup : Option (List (List Nat × Nat)))
    (k : List Nat) :
    List (Option (List Nat × Nat)) × Option (List (List Nat × Nat)) × Option Nat :=
  match perfectHit t1 t2 n m g table k with
  | some hit => (table.set hit.1 none, backup, some hit.2)
  | none =>
    match backupRemove backup k with
    | (backup', old) => (table, backup', old)

/-- Adjacency through the labelled edge list, as an unordered relation. -/
def AdjP (E : List (Nat × Nat × Nat)) (a b : Nat) : Prop :=
  ∃ e ∈ E, (e.1 = a ∧ e.2.1 = b) ∨ (e.1 = b ∧ e.2.1 = a)

/-- One step of connectivity restricted to visited vertices: both ends
visited and adjacent. -/
def stepRel (E : List (Nat × Nat × Nat)) (g : List (Nat × Nat)) (x y : Nat) : Prop :=
  assignedB g x = true ∧ assignedB g y = true ∧ AdjP E x y

/-- Connectivity within the visited vertices. -/
def ConnIn (E : List (Nat × Nat × Nat)) (g : List (Nat × Nat)) : Nat → Nat → Prop :=
  Relation.ReflTransGen (stepRel E g)

/-- The visited endpoint of an edge with exactly one visited endpoint. -/
def FrontEnd (g : List (Nat × Nat)) (e : Nat × Nat × Nat) (a : Nat) : Prop :=
  (a = e.1 ∧ assignedB g e.1 = true ∧ assignedB g e.2.1 = false) ∨
    (a = e.2.1 ∧ assignedB g e.2.1 = true ∧ assignedB g e.1 = false)

/-- The solver's traversal invariant: every edge with both endpoints
visited already has its displacement constraint satisfied, and the
visited endpoints of all partially visited edges are connected inside
the visited region (the traversal grows one component at a time). -/
structure SolveInv (m : Nat) (E : List (Nat × Nat × Nat)) (g : List (Nat × Nat)) : Prop where
  sat : ∀ e ∈ E, assignedB g e.1 = true → assignedB g e.2.1 = true →
    (gval g e.1 + gval g e.2.1) % m = e.2.2 % m
  conn : ∀ e ∈ E, ∀ e' ∈ E, ∀ a a', FrontEnd g e a → FrontEnd g e' a' → ConnIn E g a a'

/-- Number of graph vertices not yet visited by the traversal. -/
def unassignedCount (E : List (Nat × Nat × Nat)) (g : List (Nat × Nat)) : Nat :=
  ((vertsOf (epairs E)).filter (fun x => !assignedB g x)).length

/-! Basic lemmas about the traversal state. -/

lemma assignedB_cons (g : List (Nat × Nat)) (y w x : Nat) :
    assignedB ((y, w) :: g) x = ((x == y) || assignedB g x) := by
  simp only [assignedB, List.lookup]
  cases hxy : x == y <;> simp [hxy]

lemma assignedB_cons_self (g : List (Nat × Nat)) (y w : Nat) :
    assignedB ((y, w) :: g) y = true := by
  simp [assignedB_cons]

lemma assigned_mono_cons {g : List (Nat × Nat)} {x : Nat} (y w : Nat)
    (h : assignedB g x = true) : assignedB ((y, w) :: g) x = true := by
  simp [assignedB_cons, h]

lemma unassigned_of_unassigned_cons {g : List (Nat × Nat)} {x y w : Nat}
    (h : assignedB ((y, w) :: g) x = false) : assignedB g x = false ∧ x ≠ y := by
  rw [assignedB_cons] at h
  rcases Bool.or_eq_false_iff.mp h with ⟨h1, h2⟩
  exact ⟨h2, by simpa using h1⟩

lemma gval_cons_ne {x y : Nat} (g : List (Nat × Nat)) (w : Nat) (h : x ≠ y) :
    gval ((y, w) :: g) x = gval g x := by
  simp only [gval, List.lookup]
  rw [show (x == y) = false by simpa using h]

lemma gval_cons_self (g : List (Nat × Nat)) (y w : Nat) :
    gval ((y, w) :: g) y = w := by
  simp [gval, List.lookup]

lemma ne_of_assigned_unassigned {g : List (Nat × Nat)} {x y : Nat}
    (hx : assignedB g x = true) (hy : assignedB g y = false) : x ≠ y := by
  intro h; rw [h] at hx; rw [hx] at hy; cases hy

/-! Lemmas about adjacency and connectivity. -/

lemma AdjP_symm {E : List (Nat × Nat × Nat)} {a b : Nat} (h : AdjP E a b) : AdjP E b a := by
  rcases h with ⟨e, he, h1 | h2⟩
  · exact ⟨e, he, Or.inr h1⟩
  · exact ⟨e, he, Or.inl h2⟩

lemma stepRel_symm {E : List (Nat × Nat × Nat)} {g : List (Nat × Nat)} {a b : Nat}
    (h : stepRel E g a b) : stepRel E g b a :=
  ⟨h.2.1, h.1, AdjP_symm h.2.2⟩

lemma ConnIn_symm {E : List (Nat × Nat × Nat)} {g : List (Nat × Nat)} {a b : Nat}
    (h : ConnIn E g a b) : ConnIn E g b a :=
  Relation.ReflTransGen.symmetric (fun _ _ hr => stepRel_symm hr) h

lemma ConnIn_mono {E : List (Nat × Nat × Nat)} {g g' : List (Nat × Nat)}
    (hg : ∀ x, assignedB g x = true → assignedB g' x = true) {a b : Nat}
    (h : ConnIn E g a b) : ConnIn E g' a b :=
  Relation.ReflTransGen.mono (fun _ _ hr => ⟨hg _ hr.1, hg _ hr.2.1, hr.2.2⟩) h

lemma endpoint_mem_verts {E : List (Nat × Nat × Nat)} {e : Nat × Nat × Nat} (he : e ∈ E) :
    e.1 ∈ vertsOf (epairs E) ∧ e.2.1 ∈ vertsOf (epairs E) := by
  constructor <;>
  · rw [vertsOf, List.mem_dedup, List.mem_flatMap]
    exact ⟨(e.1, e.2.1), List.mem_map_of_mem _ he, by simp⟩

lemma AdjP_mem_verts {E : List (Nat × Nat × Nat)} {a b : Nat} (h : AdjP E a b) :
    a ∈ vertsOf (epairs E) ∧ b ∈ vertsOf (epairs E) := by
  rcases h with ⟨e, he, ⟨h1, h2⟩ | ⟨h1, h2⟩⟩ <;>
    rcases endpoint_mem_verts he with ⟨m1, m2⟩
  · exact ⟨by rw [← h1]; exact m1, by rw [← h2]; exact m2⟩
  · exact ⟨by rw [← h2]; exact m2, by rw [← h1]; exact m1⟩

lemma AdjP_adjB {E : List (Nat × Nat × Nat)} {a b : Nat} (h : AdjP E a b) :
    adjB (epairs E) a b = true := by
  rcases h with ⟨e, he, ⟨h1, h2⟩ | ⟨h1, h2⟩⟩ <;>
  · rw [adjB, List.any_eq_true]
    refine ⟨(e.1, e.2.1), List.mem_map_of_mem _ he, ?_⟩
    simp [h1, h2]

/-! Shape lemmas about the solver's steps. -/

lemma findFrontier_some {E : List (Nat × Nat × Nat)} {g : List (Nat × Nat)}
    {u v s : Nat} (h : findFrontier E g = some (u, v, s)) :
    assignedB g u = true ∧ assignedB g v = false ∧
      ∃ e ∈ E, e = (u, v, s) ∨ e = (v, u, s) := by
  rw [findFrontier] at h
  cases h1 : E.find? (fun e => assignedB g e.1 && !assignedB g e.2.1) with
  | some e =>
    simp only [h1] at h
    have hpred := List.find?_some h1
    have hmem := List.mem_of_find?_eq_some h1
    simp only [Bool.and_eq_true, Bool.not_eq_true'] at hpred
    injection h with h'
    have hu : e.1 = u := congrArg Prod.fst h'
    have hv : e.2.1 = v := congrArg (fun p => p.2.1) h'
    have hs : e.2.2 = s := congrArg (fun p => p.2.2) h'
    refine ⟨hu ▸ hpred.1, hv ▸ hpred.2, e, hmem, Or.inl ?_⟩
    rw [← hu, ← hv, ← hs]
  | none =>
    simp only [h1] at h
    cases h2 : E.find? (fun e => assignedB g e.2.1 && !assignedB g e.1) with
    | some e =>
      simp only [h2] at h
      have hpred := List.find?_some h2
      have hmem := List.mem_of_find?_eq_some h2
      simp only [Bool.and_eq_true, Bool.not_eq_true'] at hpred
      injection h with h'
      have hu : e.2.1 = u := congrArg Prod.fst h'
      have hv : e.1 = v := congrArg (fun p => p.2.1) h'
      have hs : e.2.2 = s := congrArg (fun p => p.2.2) h'
      refine ⟨hu ▸ hpred.1, hv ▸ hpred.2, e, hmem, Or.inr ?_⟩
      rw [← hu, ← hv, ← hs]
    | none => simp only [h2] at h; exact Option.noConfusion h

lemma findFrontier_none {E : List (Nat × Nat × Nat)} {g : List (Nat × Nat)}
    (h : findFrontier E g = none) :
    ∀ e ∈ E, assignedB g e.1 = assignedB g e.2.1 := by
  intro e he
  rw [findFrontier] at h
  cases h1 : E.find? (fun e => assignedB g e.1 && !assignedB g e.2.1) with
  | some e' => rw [h1] at h; cases h
  | none =>
    rw [h1] at h
    cases h2 : E.find? (fun e => assignedB g e.2.1 && !assignedB g e.1) with
    | some e' => rw [h2] at h; cases h
    | none =>
      have p1 := List.find?_eq_none.mp h1 e he
      have p2 := List.find?_eq_none.mp h2 e he
      cases ha : assignedB g e.1 <;> cases hb : assignedB g e.2.1 <;>
        simp_all

lemma solveStep_none {m : Nat} {E : List (Nat × Nat × Nat)} {g : List (Nat × Nat)}
    (h : solveStep m E g = none) :
    ∀ e ∈ E, assignedB g e.1 = true ∧ assignedB g e.2.1 = true := by
  intro e he
  rw [solveStep] at h
  cases hf : findFrontier E g with
  | some f => simp only [hf] at h; exact Option.noConfusion h
  | none =>
    simp only [hf] at h
    cases h3 : E.find? (fun e => !assignedB g e.1 || !assignedB g e.2.1) with
    | some e' =>
      simp only [h3] at h
      by_cases hc : assignedB g e'.1 = true <;> simp [hc] at h
    | none =>
      have p3 := List.find?_eq_none.mp h3 e he
      cases ha : assignedB g e.1 <;> cases hb : assignedB g e.2.1 <;> simp_all

lemma solveStep_some {m : Nat} {E : List (Nat × Nat × Nat)} {g g' : List (Nat × Nat)}
    (h : solveStep m E g = some g') :
    ∃ x w, g' = (x, w) :: g ∧ assignedB g x = false ∧
      (∃ e ∈ E, x = e.1 ∨ x = e.2.1) := by
  rw [solveStep] at h
  cases hf : findFrontier E g with
  | some f =>
    obtain ⟨u, v, s⟩ := f
    simp only [hf] at h
    injection h with h'
    rcases findFrontier_some hf with ⟨hu, hv, e, he, hor⟩
    refine ⟨v, _, h'.symm, hv, e, he, ?_⟩
    rcases hor with h1 | h1 <;> rw [h1]
    · exact Or.inr rfl
    · exact Or.inl rfl
  | none =>
    simp only [hf] at h
    cases h3 : E.find? (fun e => !assignedB g e.1 || !assignedB g e.2.1) with
    | some e =>
      simp only [h3] at h
      have hpred := List.find?_some h3
      have hmem := List.mem_of_find?_eq_some h3
      by_cases hc : assignedB g e.1 = true
      · rw [if_pos hc] at h
        injection h with h'
        have hb : assignedB g e.2.1 = false := by
          simp only [Bool.or_eq_true, Bool.not_eq_true'] at hpred
          rcases hpred with h4 | h4
          · rw [h4] at hc; cases hc
          · exact h4
        exact ⟨e.2.1, 0, h'.symm, hb, e, hmem, Or.inr rfl⟩
      · rw [if_neg hc] at h
        injection h with h'
        have ha : assignedB g e.1 = false := by
          cases hx : assignedB g e.1
          · rfl
          · exact absurd hx hc
        exact ⟨e.1, 0, h'.symm, ha, e, hmem, Or.inl rfl⟩
    | none => simp only [h3] at h; exact Option.noConfusion h

/-! Lemmas about duplicate edges and cycles. -/

lemma unorder_comm (a b : Nat) : unorder (a, b) = unorder (b, a) := by
  by_cases h1 : a ≤ b <;> by_cases h2 : b ≤ a <;> simp [unorder, h1, h2] <;> omega

lemma hasDup_of_two : ∀ (E : List (Nat × Nat × Nat)) {e e' : Nat × Nat × Nat},
    e ∈ E → e' ∈ E → e ≠ e' →
    unorder (e.1, e.2.1) = unorder (e'.1, e'.2.1) → hasDupPairB (epairs E) = true := by
  intro E
  induction E with
  | nil => intro e e' he _ _ _; cases he
  | cons x rest ih =>
    intro e e' he he' hne hun
    have hcons : epairs (x :: rest) = (x.1, x.2.1) :: epairs rest := rfl
    rw [hcons, hasDupPairB, Bool.or_eq_true]
    rcases List.mem_cons.mp he with he1 | he1
    · rcases List.mem_cons.mp he' with he2 | he2
      · exact absurd (he1.trans he2.symm) hne
      · left
        rw [List.any_eq_true]
        refine ⟨(e'.1, e'.2.1), List.mem_map_of_mem _ he2, ?_⟩
        rw [decide_eq_true_eq, ← hun, he1]
    · rcases List.mem_cons.mp he' with he2 | he2
      · left
        rw [List.any_eq_true]
        refine ⟨(e.1, e.2.1), List.mem_map_of_mem _ he1, ?_⟩
        rw [decide_eq_true_eq, hun, he2]
      · exact Or.inr (ih he1 he2 hne hun)

lemma cycleB_of_selfLoop {E : List (Nat × Nat × Nat)} {e : Nat × Nat × Nat}
    (he : e ∈ E) (hl : e.1 = e.2.1) : cycleB (epairs E) = true := by
  rw [cycleB, Bool.or_eq_true]
  left
  rw [hasSelfLoopB, List.any_eq_true]
  exact ⟨(e.1, e.2.1), List.mem_map_of_mem _ he, by simp [hl]⟩

lemma chainB_of_chain {f : Nat → Nat → Bool} : ∀ (x : Nat) (l : List Nat),
    List.Chain (fun a b => f a b = true) x l → chainB f x l = true := by
  intro x l
  induction l generalizing x with
  | nil => intro _; rfl
  | cons y ys ih =>
    intro h
    rcases List.chain_cons.mp h with ⟨h1, h2⟩
    rw [chainB]
    simp [h1, ih y h2]

lemma cycleB_of_simple_cycle {es : List (Nat × Nat)} {v : Nat} {l : List Nat}
    (h3 : 3 ≤ (v :: l).length) (hnd : (v :: l).Nodup)
    (hsub : ∀ x ∈ v :: l, x ∈ vertsOf es)
    (hch : List.Chain (fun a b => adjB es a b = true) v (l ++ [v])) :
    cycleB es = true := by
  have hsubperm : List.Subperm (v :: l) (vertsOf es) := hnd.subperm hsub
  obtain ⟨sl, hperm, hsl⟩ := hsubperm
  rw [cycleB, Bool.or_eq_true]
  right
  rw [List.any_eq_true]
  refine ⟨sl, ?_, ?_⟩
  · rw [List.mem_filter]
    refine ⟨List.mem_sublists.mpr hsl, ?_⟩
    rw [decide_eq_true_eq, hperm.length_eq]
    exact h3
  · rw [List.any_eq_true]
    refine ⟨v :: l, List.mem_permutations'.mpr hperm.symm, ?_⟩
    rw [isCycleListB]
    simp only [Bool.and_eq_true, decide_eq_true_eq]
    exact ⟨⟨h3, hnd⟩, chainB_of_chain v (l ++ [v]) hch⟩

lemma chain_mem_rel {R : Nat → Nat → Prop} :
    ∀ l : List Nat, List.Chain' R l → 2 ≤ l.length →
      ∀ x ∈ l, ∃ y, R x y ∨ R y x := by
  intro l
  induction l with
  | nil => intro _ _ x hx; cases hx
  | cons a rest ih =>
    intro hch hlen x hx
    cases rest with
    | nil => simp at hlen
    | cons b rest' =>
      have hab : R a b := List.chain'_cons.mp hch |>.1
      have hch' : List.Chain' R (b :: rest') := List.chain'_cons.mp hch |>.2
      rcases List.mem_cons.mp hx with rfl | hx'
      · exact ⟨b, Or.inl hab⟩
      · cases rest' with
        | nil =>
          have : x = b := by simpa using hx'
          exact ⟨a, Or.inr (this ▸ hab)⟩
        | cons c rest'' =>
          exact ih hch' (by simp) x hx'

/-! Extraction of a duplicate-free path from connectivity. -/

lemma conn_path {E : List (Nat × Nat × Nat)} {g : List (Nat × Nat)} {a b : Nat}
    (ha : assignedB g a = true) (h : ConnIn E g a b) :
    ∃ l : List Nat, l ≠ [] ∧ l.head? = some a ∧ l.getLast? = some b ∧
      List.Chain' (stepRel E g) l ∧ l.Nodup ∧ ∀ x ∈ l, assignedB g x = true := by
  induction h with
  | refl =>
    exact ⟨[a], by simp, rfl, rfl, List.chain'_singleton a, List.nodup_singleton a,
      by intro x hx; rw [List.mem_singleton.mp hx]; exact ha⟩
  | tail h1 h2 ih =>
    rename_i b' c
    obtain ⟨l, hne, hhead, hlast, hch, hnd, hass⟩ := ih
    by_cases hc : c ∈ l
    · obtain ⟨l₁, l₂, rfl⟩ := List.append_of_mem hc
      have hl : l₁ ++ c :: l₂ = (l₁ ++ [c]) ++ l₂ := by simp
      refine ⟨l₁ ++ [c], by simp, ?_, ?_, ?_, ?_, ?_⟩
      · cases l₁ with
        | nil => simpa using hhead
        | cons x xs => simpa using hhead
      · rw [List.getLast?_concat]
      · rw [hl] at hch
        exact (List.chain'_append.mp hch).1
      · rw [hl] at hnd
        exact hnd.sublist (List.sublist_append_left (l₁ ++ [c]) l₂)
      · intro x hx
        refine hass x ?_
        rcases List.mem_append.mp hx with h' | h'
        · exact List.mem_append.mpr (Or.inl h')
        · rw [List.mem_singleton.mp h']
          exact List.mem_append.mpr (Or.inr (List.mem_cons_self _ _))
    · refine ⟨l ++ [c], by simp, ?_, ?_, ?_, ?_, ?_⟩
      · cases l with
        | nil => exact absurd rfl hne
        | cons x xs => simpa using hhead
      · rw [List.getLast?_concat]
      · refine List.chain'_append.mpr ⟨hch, List.chain'_singleton c, ?_⟩
        intro x hx y hy
        rw [hlast] at hx
        have hx' : b' = x := by simpa using hx
        have hy' : c = y := by simpa using hy
        rw [← hx', ← hy']
        exact h2
      · rw [List.nodup_append]
        refine ⟨hnd, List.nodup_singleton c, ?_⟩
        intro x hx hxc
        rw [List.mem_singleton.mp hxc] at hx
        exact hc hx
      · intro x hx
        rcases List.mem_append.mp hx with h' | h'
        · exact hass x h'
        · rw [List.mem_singleton.mp h']
          exact h2.2.1

/-- Central contradiction: an unvisited vertex `v` cannot be joined by
two distinct edges to two visited vertices `u`, `w` that are connected
inside the visited region, unless the graph has a duplicate edge
(`w = u`) or a cycle (`w ≠ u`). -/
lemma no_cross {E : List (Nat × Nat × Nat)} {g : List (Nat × Nat)}
    (hcyc : cycleB (epairs E) = false) (hdup : hasDupPairB (epairs E) = false)
    {u v w : Nat} {e0 e' : Nat × Nat × Nat}
    (he0 : e0 ∈ E) (he' : e' ∈ E) (hne : e' ≠ e0)
    (hp0 : (e0.1 = u ∧ e0.2.1 = v) ∨ (e0.1 = v ∧ e0.2.1 = u))
    (hp' : (e'.1 = v ∧ e'.2.1 = w) ∨ (e'.1 = w ∧ e'.2.1 = v))
    (hu : assignedB g u = true) (hv : assignedB g v = false)
    (hw : assignedB g w = true) (hconn : ConnIn E g u w) : False := by
  have hadj0 : AdjP E v u := by
    rcases hp0 with ⟨h1, h2⟩ | ⟨h1, h2⟩
    · exact ⟨e0, he0, Or.inr ⟨h1, h2⟩⟩
    · exact ⟨e0, he0, Or.inl ⟨h1, h2⟩⟩
  have hadj' : AdjP E w v := by
    rcases hp' with ⟨h1, h2⟩ | ⟨h1, h2⟩
    · exact ⟨e', he', Or.inr ⟨h1, h2⟩⟩
    · exact ⟨e', he', Or.inl ⟨h1, h2⟩⟩
  have hun0 : unorder (e0.1, e0.2.1) = unorder (u, v) := by
    rcases hp0 with ⟨h1, h2⟩ | ⟨h1, h2⟩
    · rw [h1, h2]
    · rw [h1, h2]; exact unorder_comm v u
  have hun' : unorder (e'.1, e'.2.1) = unorder (v, w) := by
    rcases hp' with ⟨h1, h2⟩ | ⟨h1, h2⟩
    · rw [h1, h2]
    · rw [h1, h2]; exact unorder_comm w v
  by_cases hwu : w = u
  · have hsame : unorder (e'.1, e'.2.1) = unorder (e0.1, e0.2.1) := by
      rw [hun', hun0, hwu, unorder_comm]
    have hd := hasDup_of_two E he' he0 hne hsame
    rw [hd] at hdup
    cases hdup
  · obtain ⟨l, hnel, hhead, hlast, hch, hnd, hass⟩ := conn_path hu hconn
    have hvl : v ∉ l := by
      intro hmem
      rw [hass v hmem] at hv
      cases hv
    cases l with
    | nil => exact absurd rfl hnel
    | cons x xs =>
      have hx : x = u := by simpa using hhead
      have hlen2 : 2 ≤ (x :: xs).length := by
        cases xs with
        | nil =>
          exfalso
          have h2 : x = w := by simpa using hlast
          exact hwu (by rw [← h2, hx])
        | cons y ys => simp
      have hwlast : (x :: xs).getLast? = some w := hlast
      have hchainadj : List.Chain' (fun a b => adjB (epairs E) a b = true) (x :: xs) :=
        hch.imp (fun a b hr => AdjP_adjB hr.2.2)
      have hwhole : List.Chain' (fun a b => adjB (epairs E) a b = true)
          ((v :: x :: xs) ++ [v]) := by
        refine List.chain'_append.mpr ⟨?_, List.chain'_singleton v, ?_⟩
        · refine List.chain'_cons.mpr ⟨?_, hchainadj⟩
          rw [hx]
          exact AdjP_adjB hadj0
        · intro p hp q hq
          have hq' : v = q := by simpa using hq
          have hp' : w = p := by
            rw [List.getLast?_cons_cons, hwlast] at hp
            simpa using hp
          rw [← hp', ← hq']
          exact AdjP_adjB hadj'
      rw [List.cons_append] at hwhole
      have hcy := @cycleB_of_simple_cycle (epairs E) v (x :: xs)
        (by simpa using Nat.succ_le_succ hlen2)
        (List.nodup_cons.mpr ⟨hvl, hnd⟩)
        (by
          intro z hz
          rcases List.mem_cons.mp hz with rfl | hz'
          · exact (AdjP_mem_verts hadj0).1
          · rcases chain_mem_rel (x :: xs) hch hlen2 z hz' with ⟨y, hy | hy⟩
            · exact (AdjP_mem_verts hy.2.2).1
            · exact (AdjP_mem_verts hy.2.2).2)
        hwhole
      rw [hcy] at hcyc
      cases hcyc

/-- The propagated value satisfies its edge's constraint:
`g[u] + ((s - g[u]) mod m) ≡ s (mod m)`. -/
lemma mod_fix {m : Nat} (hm : 0 < m) (a s : Nat) :
    (a + (s + (m - a % m)) % m) % m = s % m := by
  have hlt : a % m < m := Nat.mod_lt _ hm
  have hd := Nat.div_add_mod a m
  have key : a + (s + (m - a % m)) = s + m * (a / m + 1) := by
    rw [Nat.mul_add, Nat.mul_one]
    omega
  calc (a + (s + (m - a % m)) % m) % m
      = (a + (s + (m - a % m))) % m := Nat.ModEq.add_left a (Nat.mod_modEq _ m)
    _ = (s + m * (a / m + 1)) % m := by rw [key]
    _ = s % m := Nat.add_mul_mod_self_left s m (a / m + 1)

lemma inv_init (m : Nat) (E : List (Nat × Nat × Nat)) : SolveInv m E [] := by
  constructor
  · intro e _ h1 _
    simp [assignedB, List.lookup] at h1
  · intro e _ e' _ a a' hf _
    rcases hf with ⟨_, h1, _⟩ | ⟨_, h1, _⟩ <;> simp [assignedB, List.lookup] at h1

lemma inv_step {m : Nat} {E : List (Nat × Nat × Nat)} {g g' : List (Nat × Nat)}
    (hm : 0 < m)
    (hcyc : cycleB (epairs E) = false) (hdup : hasDupPairB (epairs E) = false)
    (hinv : SolveInv m E g) (hstep : solveStep m E g = some g') : SolveInv m E g' := by
  rw [solveStep] at hstep
  cases hf : findFrontier E g with
  | some f =>
    obtain ⟨u, v, s⟩ := f
    simp only [hf] at hstep
    injection hstep with hg'
    rcases findFrontier_some hf with ⟨hu, hv, e0, he0, hor0⟩
    have hp0 : (e0.1 = u ∧ e0.2.1 = v) ∨ (e0.1 = v ∧ e0.2.1 = u) := by
      rcases hor0 with h | h <;> rw [h]
      · exact Or.inl ⟨rfl, rfl⟩
      · exact Or.inr ⟨rfl, rfl⟩
    have hs0 : e0.2.2 = s := by
      rcases hor0 with h | h <;> rw [h]
    have huv : u ≠ v := ne_of_assigned_unassigned hu hv
    have hF0 : FrontEnd g e0 u := by
      rcases hp0 with ⟨h1, h2⟩ | ⟨h1, h2⟩
      · exact Or.inl ⟨h1.symm, by rw [h1]; exact hu, by rw [h2]; exact hv⟩
      · exact Or.inr ⟨h2.symm, by rw [h2]; exact hu, by rw [h1]; exact hv⟩
    have hadj0 : AdjP E v u := by
      rcases hp0 with ⟨h1, h2⟩ | ⟨h1, h2⟩
      · exact ⟨e0, he0, Or.inr ⟨h1, h2⟩⟩
      · exact ⟨e0, he0, Or.inl ⟨h1, h2⟩⟩
    subst hg'
    set val := (s + (m - gval g u % m)) % m with hval
    constructor
    · intro e' he' hA hB
      have hA' : e'.1 = v ∨ assignedB g e'.1 = true := by
        rw [assignedB_cons] at hA
        simpa using hA
      have hB' : e'.2.1 = v ∨ assignedB g e'.2.1 = true := by
        rw [assignedB_cons] at hB
        simpa using hB
      rcases hA' with h1 | h1
      · rcases hB' with h2 | h2
        · -- self-loop
          have := cycleB_of_selfLoop he' (by rw [h1, h2])
          rw [this] at hcyc
          cases hcyc
        · -- e'.1 = v, e'.2.1 assigned in g
          by_cases heq : e' = e0
          · subst heq
            rcases hp0 with ⟨hx1, hx2⟩ | ⟨hx1, hx2⟩
            · exfalso
              rw [hx1] at h1
              exact huv h1
            · rw [hs0, hx1, hx2, gval_cons_self, gval_cons_ne g val huv,
                Nat.add_comm]
              exact mod_fix hm (gval g u) s
          · exact (no_cross hcyc hdup he0 he' heq hp0
              (Or.inl ⟨h1, rfl⟩) hu hv h2
              (hinv.conn e0 he0 e' he' u e'.2.1 hF0
                (Or.inr ⟨rfl, h2, by rw [h1]; exact hv⟩))).elim
      · rcases hB' with h2 | h2
        · -- e'.2.1 = v, e'.1 assigned in g
          by_cases heq : e' = e0
          · subst heq
            rcases hp0 with ⟨hx1, hx2⟩ | ⟨hx1, hx2⟩
            · rw [hs0, hx1, hx2, gval_cons_self, gval_cons_ne g val huv]
              exact mod_fix hm (gval g u) s
            · exfalso
              rw [hx1] at h1
              rw [h1] at hv
              cases hv
          · exact (no_cross hcyc hdup he0 he' heq hp0
              (Or.inr ⟨rfl, h2⟩) hu hv h1
              (hinv.conn e0 he0 e' he' u e'.1 hF0
                (Or.inl ⟨rfl, h1, by rw [h2]; exact hv⟩))).elim
        · -- both assigned in g
          have hn1 : e'.1 ≠ v := ne_of_assigned_unassigned h1 hv
          have hn2 : e'.2.1 ≠ v := ne_of_assigned_unassigned h2 hv
          rw [gval_cons_ne g val hn1, gval_cons_ne g val hn2]
          exact hinv.sat e' he' h1 h2
    · intro e1 he1 e2 he2 a1 a2 hF1 hF2
      have claim : ∀ e' ∈ E, ∀ a', FrontEnd ((v, val) :: g) e' a' →
          ConnIn E ((v, val) :: g) a' u := by
        intro e' he' a' hF'
        have hmono : ∀ x, assignedB g x = true → assignedB ((v, val) :: g) x = true :=
          fun x hx => assigned_mono_cons v val hx
        by_cases hav : a' = v
        · rw [hav]
          exact Relation.ReflTransGen.single
            ⟨assignedB_cons_self g v val, hmono u hu, hadj0⟩
        · have hFg : FrontEnd g e' a' := by
            rcases hF' with ⟨ha', hA, hB⟩ | ⟨ha', hA, hB⟩
            · rcases unassigned_of_unassigned_cons hB with ⟨hB1, _⟩
              have hA1 : assignedB g e'.1 = true := by
                rw [assignedB_cons] at hA
                rcases (by simpa using hA : e'.1 = v ∨ assignedB g e'.1 = true) with h | h
                · exact absurd (ha'.trans h) hav
                · exact h
              exact Or.inl ⟨ha', hA1, hB1⟩
            · rcases unassigned_of_unassigned_cons hB with ⟨hB1, _⟩
              have hA1 : assignedB g e'.2.1 = true := by
                rw [assignedB_cons] at hA
                rcases (by simpa using hA : e'.2.1 = v ∨ assignedB g e'.2.1 = true) with h | h
                · exact absurd (ha'.trans h) hav
                · exact h
              exact Or.inr ⟨ha', hA1, hB1⟩
          exact ConnIn_mono hmono (hinv.conn e' he' e0 he0 a' u hFg hF0)
      exact (claim e1 he1 a1 hF1).trans (ConnIn_symm (claim e2 he2 a2 hF2))
  | none =>
    simp only [hf] at hstep
    have hflat := findFrontier_none hf
    cases h3 : E.find? (fun e => !assignedB g e.1 || !assignedB g e.2.1) with
    | some e1 =>
      simp only [h3] at hstep
      have hpred := List.find?_some h3
      have hmem := List.mem_of_find?_eq_some h3
      simp only [Bool.or_eq_true, Bool.not_eq_true'] at hpred
      by_cases hc : assignedB g e1.1 = true
      · exfalso
        have hb : assignedB g e1.2.1 = false := by
          rcases hpred with h4 | h4
          · rw [h4] at hc; cases hc
          · exact h4
        have := hflat e1 hmem
        rw [hc, hb] at this
        cases this
      · rw [if_neg hc] at hstep
        injection hstep with hg'
        have ha1 : assignedB g e1.1 = false := by
          cases hx : assignedB g e1.1
          · rfl
          · exact absurd hx hc
        subst hg'
        set r := e1.1 with hr
        constructor
        · intro e' he' hA hB
          have hA' : e'.1 = r ∨ assignedB g e'.1 = true := by
            rw [assignedB_cons] at hA
            simpa using hA
          have hB' : e'.2.1 = r ∨ assignedB g e'.2.1 = true := by
            rw [assignedB_cons] at hB
            simpa using hB
          rcases hA' with h1 | h1
          · rcases hB' with h2 | h2
            · have := cycleB_of_selfLoop he' (by rw [h1, h2])
              rw [this] at hcyc
              cases hcyc
            · exfalso
              have := hflat e' he'
              rw [h1] at this
              rw [ha1] at this
              rw [h2] at this
              cases this
          · rcases hB' with h2 | h2
            · exfalso
              have := hflat e' he'
              rw [h2] at this
              rw [ha1] at this
              rw [h1] at this
              cases this
            · have hn1 : e'.1 ≠ r := ne_of_assigned_unassigned h1 ha1
              have hn2 : e'.2.1 ≠ r := ne_of_assigned_unassigned h2 ha1
              rw [gval_cons_ne g 0 hn1, gval_cons_ne g 0 hn2]
              exact hinv.sat e' he' h1 h2
        · intro e1' he1' e2' he2' a1 a2 hF1 hF2
          have claim : ∀ e' ∈ E, ∀ a', FrontEnd ((r, 0) :: g) e' a' → a' = r := by
            intro e' he' a' hF'
            by_cases hav : a' = r
            · exact hav
            · exfalso
              rcases hF' with ⟨ha', hA, hB⟩ | ⟨ha', hA, hB⟩
              · rcases unassigned_of_unassigned_cons hB with ⟨hB1, _⟩
                have hA1 : assignedB g e'.1 = true := by
                  rw [assignedB_cons] at hA
                  rcases (by simpa using hA : e'.1 = r ∨ assignedB g e'.1 = true) with h | h
                  · exact absurd (ha'.trans h) hav
                  · exact h
                have := hflat e' he'
                rw [hA1, hB1] at this
                cases this
              · rcases unassigned_of_unassigned_cons hB with ⟨hB1, _⟩
                have hA1 : assignedB g e'.2.1 = true := by
                  rw [assignedB_cons] at hA
                  rcases (by simpa using hA : e'.2.1 = r ∨ assignedB g e'.2.1 = true) with h | h
                  · exact absurd (ha'.trans h) hav
                  · exact h
                have := hflat e' he'
                rw [hA1, hB1] at this
                cases this
          rw [claim e1' he1' a1 hF1, claim e2' he2' a2 hF2]
          exact Relation.ReflTransGen.refl
    | none =>
      simp only [h3] at hstep
      exact Option.noConfusion hstep

lemma filter_imp_sublist {p q : Nat → Bool} (h : ∀ a, q a = true → p a = true) :
    ∀ l : List Nat, (l.filter q).Sublist (l.filter p) := by
  intro l
  induction l with
  | nil => simp
  | cons a l ih =>
    by_cases hq : q a = true
    · rw [List.filter_cons_of_pos hq, List.filter_cons_of_pos (h a hq)]
      exact ih.cons₂ a
    · rw [List.filter_cons_of_neg (by simpa using hq)]
      by_cases hp : p a = true
      · rw [List.filter_cons_of_pos hp]
        exact ih.cons a
      · rw [List.filter_cons_of_neg (by simpa using hp)]
        exact ih

lemma step_measure {m : Nat} {E : List (Nat × Nat × Nat)} {g g' : List (Nat × Nat)}
    (h : solveStep m E g = some g') :
    unassignedCount E g' < unassignedCount E g := by
  obtain ⟨x, w, rfl, hx, e, he, hxe⟩ := solveStep_some h
  have hxv : x ∈ vertsOf (epairs E) := by
    rcases hxe with h' | h' <;> rw [h']
    · exact (endpoint_mem_verts he).1
    · exact (endpoint_mem_verts he).2
  rw [unassignedCount, unassignedCount]
  have hsub := filter_imp_sublist (p := fun y => !assignedB g y)
      (q := fun y => !assignedB ((x, w) :: g) y)
      (by
        intro a ha
        rcases unassigned_of_unassigned_cons (by simpa using ha) with ⟨h1, _⟩
        simpa using h1)
      (vertsOf (epairs E))
  have hxp : x ∈ (vertsOf (epairs E)).filter (fun y => !assignedB g y) :=
    List.mem_filter.mpr ⟨hxv, by simp [hx]⟩
  have hxq : x ∉ (vertsOf (epairs E)).filter (fun y => !assignedB ((x, w) :: g) y) := by
    intro hmem
    have := (List.mem_filter.mp hmem).2
    simp [assignedB_cons_self] at this
  rcases Nat.lt_or_ge (((vertsOf (epairs E)).filter (fun y => !assignedB ((x, w) :: g) y)).length)
      (((vertsOf (epairs E)).filter (fun y => !assignedB g y)).length) with hlt | hge
  · exact hlt
  · exfalso
    have heqlen : ((vertsOf (epairs E)).filter (fun y => !assignedB ((x, w) :: g) y)).length =
        ((vertsOf (epairs E)).filter (fun y => !assignedB g y)).length :=
      Nat.le_antisymm hsub.length_le hge
    have := hsub.eq_of_length heqlen
    rw [this] at hxq
    exact hxq hxp

lemma loop_exhausts {m : Nat} {E : List (Nat × Nat × Nat)} :
    ∀ fuel (g : List (Nat × Nat)), unassignedCount E g ≤ fuel →
      solveStep m E (solveLoop m E fuel g) = none := by
  intro fuel
  induction fuel with
  | zero =>
    intro g hg
    have hnil : (vertsOf (epairs E)).filter (fun x => !assignedB g x) = [] :=
      List.length_eq_zero.mp (Nat.le_zero.mp hg)
    have hall : ∀ y ∈ vertsOf (epairs E), assignedB g y = true := by
      intro y hy
      by_contra hne
      have hmem : y ∈ (vertsOf (epairs E)).filter (fun x => !assignedB g x) :=
        List.mem_filter.mpr ⟨hy, by simp [Bool.not_eq_true] at hne ⊢; exact hne⟩
      rw [hnil] at hmem
      cases hmem
    have h1 : E.find? (fun e => assignedB g e.1 && !assignedB g e.2.1) = none :=
      List.find?_eq_none.mpr (fun e he => by
        simp [hall _ (endpoint_mem_verts he).1, hall _ (endpoint_mem_verts he).2])
    have h2 : E.find? (fun e => assignedB g e.2.1 && !assignedB g e.1) = none :=
      List.find?_eq_none.mpr (fun e he => by
        simp [hall _ (endpoint_mem_verts he).1, hall _ (endpoint_mem_verts he).2])
    have h3 : E.find? (fun e => !assignedB g e.1 || !assignedB g e.2.1) = none :=
      List.find?_eq_none.mpr (fun e he => by
        simp [hall _ (endpoint_mem_verts he).1, hall _ (endpoint_mem_verts he).2])
    rw [solveLoop, solveStep, findFrontier]
    simp only [h1, h2, h3]
  | succ fuel ih =>
    intro g hg
    rw [solveLoop]
    cases hs : solveStep m E g with
    | none => exact hs
    | some g' =>
      have := step_measure hs
      exact ih g' (by omega)

lemma inv_loop {m : Nat} {E : List (Nat × Nat × Nat)} (hm : 0 < m)
    (hcyc : cycleB (epairs E) = false) (hdup : hasDupPairB (epairs E) = false) :
    ∀ fuel (g : List (Nat × Nat)), SolveInv m E g → SolveInv m E (solveLoop m E fuel g) := by
  intro fuel
  induction fuel with
  | zero => intro g hinv; exact hinv
  | succ fuel ih =>
    intro g hinv
    rw [solveLoop]
    cases hs : solveStep m E g with
    | none => exact hinv
    | some g' => exact ih g' (inv_step hm hcyc hdup hinv hs)

/-- The displacement assignment produced by the solver satisfies every
edge's constraint whenever the key graph is valid (no cycle, no
duplicate edge). -/
lemma solve_sat {m : Nat} {E : List (Nat × Nat × Nat)} (hm : 0 < m)
    (hcyc : cycleB (epairs E) = false) (hdup : hasDupPairB (epairs E) = false) :
    ∀ e ∈ E, (gval (solve m E) e.1 + gval (solve m E) e.2.1) % m = e.2.2 % m := by
  have hinv : SolveInv m E (solve m E) :=
    inv_loop hm hcyc hdup _ [] (inv_init m E)
  have hnone : solveStep m E (solve m E) = none :=
    loop_exhausts _ [] (List.length_filter_le _ _)
  intro e he
  obtain ⟨h1, h2⟩ := solveStep_none hnone e he
  exact hinv.sat e he h1 h2

lemma epairs_specEdgesFrom : ∀ (es : List (Nat × Nat × Unit)) (j : Nat),
    epairs (specEdgesFrom j es) = pairsOf es := by
  intro es
  induction es with
  | nil => intro j; rfl
  | cons e rest ih =>
    intro j
    show (e.1, e.2.1) :: epairs (specEdgesFrom (j + 1) rest) = (e.1, e.2.1) :: pairsOf rest
    rw [ih]

lemma slots_range {m : Nat} (g : List (Nat × Nat)) :
    ∀ (es : List (Nat × Nat × Unit)) (j : Nat), j + es.length ≤ m →
    (∀ e ∈ specEdgesFrom j es, (gval g e.1 + gval g e.2.1) % m = e.2.2 % m) →
    (specEdgesFrom j es).map (fun e => (gval g e.1 + gval g e.2.1) % m) =
      List.range' j es.length := by
  intro es
  induction es with
  | nil => intro j _ _; rfl
  | cons e rest ih =>
    intro j hj hsat
    have hj' : j + (rest.length + 1) ≤ m := by simpa using hj
    have hjm : j < m := by omega
    have hhead := hsat (e.1, e.2.1, j) (List.mem_cons_self _ _)
    show ((gval g e.1 + gval g e.2.1) % m) :: _ = j :: List.range' (j + 1) rest.length
    congr 1
    · rw [hhead]
      exact Nat.mod_eq_of_lt hjm
    · exact ih (j + 1) (by omega)
        (fun e' he' => hsat e' (List.mem_cons_of_mem _ he'))

lemma trialEdges_length {t1 t2 : List Nat} {n m : Nat} :
    ∀ (keys : List (List Nat)) (es : List (Nat × Nat × Unit)),
      trialEdges t1 t2 n m keys = some es → es.length = keys.length := by
  intro keys
  induction keys with
  | nil =>
    intro es h
    rw [trialEdges] at h
    injection h with h'
    rw [← h']
    rfl
  | cons k ks ih =>
    intro es h
    rw [trialEdges] at h
    cases hp : hashPair t1 t2 n m k with
    | none => simp only [hp] at h; exact Option.noConfusion h
    | some p =>
      simp only [hp] at h
      cases ht : trialEdges t1 t2 n m ks with
      | none => simp only [ht] at h; exact Option.noConfusion h
      | some rest =>
        simp only [ht] at h
        injection h with h'
        rw [← h']
        show rest.length + 1 = ks.length + 1
        rw [ih rest ht]

/-- C1: for every non-empty known key set on which construction succeeds
(the trial's graph was built and accepted by the acyclicity test), the
displacement assignment of spec section 4.3 (modelled from the spec; it
is absent from `HashMap::new`, which stops after the acyclicity test)
makes the map `key ↦ (g[f1(key)] + g[f2(key)]) mod m` injective over
the known keys with image exactly `{0, ..., m-1}`. -/
theorem C1_bijection (t1 t2 : List Nat) (n : Nat) (keys : List (List Nat))
    (es : List (Nat × Nat × Unit))
    (hm : 0 < keys.length)
    (hE : trialEdges t1 t2 n keys.length keys = some es)
    (hacy : isAcyclicSpec (pairsOf es) = true) :
    (slotsOf keys.length (solve keys.length (specEdges es)) (specEdges es)).Nodup ∧
      ∀ s, s ∈ slotsOf keys.length (solve keys.length (specEdges es)) (specEdges es) ↔
        s < keys.length := by
  have hpe : epairs (specEdges es) = pairsOf es := epairs_specEdgesFrom es 0
  rw [isAcyclicSpec, Bool.and_eq_true, Bool.not_eq_true'] at hacy
  obtain ⟨hacy1, hacy2⟩ := hacy
  rw [Bool.not_eq_true'] at hacy2
  have hcyc : cycleB (epairs (specEdges es)) = false := by rw [hpe]; exact hacy1
  have hdup : hasDupPairB (epairs (specEdges es)) = false := by rw [hpe]; exact hacy2
  have hsat := solve_sat (E := specEdges es) hm hcyc hdup
  have hlen := trialEdges_length keys es hE
  have hslots : slotsOf keys.length (solve keys.length (specEdges es)) (specEdges es) =
      List.range' 0 es.length := by
    rw [slotsOf]
    exact slots_range _ es 0 (by omega) hsat
  rw [hslots, hlen, ← List.range_eq_range']
  exact ⟨List.nodup_range _, fun s => List.mem_range⟩

/-- C1, witnessed: the concrete scenario with keys `"a"`, `"b"`, `"c"`
(`m = 3`, `n = 6`) and tables `t1 = [1,1,1]`, `t2 = [2,2,2]`: the trial
is accepted and the slots are a bijection onto `{0, 1, 2}`. -/
theorem C1_bijection_witness :
    0 < ([[97], [98], [99]] : List (List Nat)).length ∧
    trialEdges [1, 1, 1] [2, 2, 2] 6 3 [[97], [98], [99]] =
      some [(1, 2, ()), (2, 4, ()), (3, 0, ())] ∧
    isAcyclicSpec (pairsOf [(1, 2, ()), (2, 4, ()), (3, 0, ())]) = true ∧
    ((slotsOf 3 (solve 3 (specEdges [(1, 2, ()), (2, 4, ()), (3, 0, ())]))
        (specEdges [(1, 2, ()), (2, 4, ()), (3, 0, ())])).Nodup ∧
      ∀ s, s ∈ slotsOf 3 (solve 3 (specEdges [(1, 2, ()), (2, 4, ()), (3, 0, ())]))
          (specEdges [(1, 2, ()), (2, 4, ()), (3, 0, ())]) ↔ s < 3) :=
  ⟨by decide, by decide, by decide,
    C1_bijection [1, 1, 1] [2, 2, 2] 6 [[97], [98], [99]]
      [(1, 2, ()), (2, 4, ()), (3, 0, ())] (by decide) (by decide) (by decide)⟩

/-! Lemmas about the accumulator state across write calls. -/

lemma write_some_shape {st st' : PerfectHashState} {bytes : List Nat}
    (h : write st bytes = some st') :
    st'.maxLength = st.maxLength ∧ st'.i = min (st.i + bytes.length) st.maxLength := by
  rw [write] at h
  cases hacc : writeAccum st.t1 st.t2
      (bytes.zip (List.range' st.i (st.maxLength - st.i))) st.u st.v with
  | none => simp only [hacc] at h; exact Option.noConfusion h
  | some p =>
    simp only [hacc] at h
    injection h with h'
    rw [← h']
    exact ⟨rfl, rfl⟩

lemma writeSeq_i_le : ∀ (chunks : List (List Nat)) (st st' : PerfectHashState),
    st.i ≤ st.maxLength → writeSeq st chunks = some st' → st'.i ≤ st'.maxLength := by
  intro chunks
  induction chunks with
  | nil =>
    intro st st' hle h
    rw [writeSeq] at h
    injection h with h'
    rw [← h']
    exact hle
  | cons c cs ih =>
    intro st st' hle h
    rw [writeSeq] at h
    cases hw : write st c with
    | none => simp only [hw] at h; exact Option.noConfusion h
    | some st1 =>
      simp only [hw] at h
      rcases write_some_shape hw with ⟨hmax, hi⟩
      exact ih st1 st' (by rw [hmax, hi]; exact Nat.min_le_right _ _) h

lemma write_saturated {st : PerfectHashState} (hsat : st.i = st.maxLength)
    (bytes : List Nat) : write st bytes = some st := by
  obtain ⟨t1, t2, maxL, n, m, i, u, v⟩ := st
  simp only at hsat
  subst hsat
  rw [write]
  simp only [Nat.sub_self]
  rw [show List.range' i 0 = [] from rfl, List.zip_nil_right]
  rw [show writeAccum t1 t2 [] u v = some (u, v) from rfl]
  simp only
  congr 2
  exact Nat.min_eq_right (Nat.le_add_right i bytes.length)

/-- C10: across any sequence of write calls starting from a fresh state,
the byte cursor `i` never exceeds `max_length` (the seed-table length),
and once `i` has reached `max_length` a further write returns the state
unchanged (in particular the accumulated sums `u` and `v` are
unchanged): the truncation-at-L policy holds across multiple absorbs. -/
theorem C10_cursor_invariant (t1 t2 : List Nat) (n m : Nat)
    (chunks : List (List Nat)) (st : PerfectHashState)
    (h : writeSeq (PerfectHashState.new t1 t2 n m) chunks = some st) :
    st.i ≤ st.maxLength ∧
      (st.i = st.maxLength → ∀ bytes, write st bytes = some st) := by
  refine ⟨writeSeq_i_le chunks _ st (Nat.zero_le _) h, ?_⟩
  intro hsat bytes
  exact write_saturated hsat bytes

/-- C10, witnessed: two absorbs on a one-entry table saturate the
cursor, and a further write leaves the state unchanged. -/
theorem C10_cursor_invariant_witness :
    writeSeq (PerfectHashState.new [1] [1] 2 1) [[5], [6]] =
      some ⟨[1], [1], 1, 2, 1, 1, 5, 5⟩ ∧
    ((⟨[1], [1], 1, 2, 1, 1, 5, 5⟩ : PerfectHashState).i ≤
        (⟨[1], [1], 1, 2, 1, 1, 5, 5⟩ : PerfectHashState).maxLength ∧
      ((⟨[1], [1], 1, 2, 1, 1, 5, 5⟩ : PerfectHashState).i =
          (⟨[1], [1], 1, 2, 1, 1, 5, 5⟩ : PerfectHashState).maxLength →
        ∀ bytes, write ⟨[1], [1], 1, 2, 1, 1, 5, 5⟩ bytes =
          some ⟨[1], [1], 1, 2, 1, 1, 5, 5⟩)) :=
  ⟨by decide, C10_cursor_invariant [1] [1] 2 1 [[5], [6]] _ (by decide)⟩

lemma write_overflow_pair (a n m : Nat) (h1 : a < WORD) (h2 : ¬ a + a < WORD) :
    write (PerfectHashState.new [a, a] [a, a] n m) [1, 1] = none := by
  have e1 : checked_add 0 ((List.getD [a, a] 0 0 * 1) % WORD) = some a := by
    rw [show List.getD [a, a] 0 0 = a from rfl, Nat.mul_one, Nat.mod_eq_of_lt h1,
      checked_add, if_pos (by omega), Nat.zero_add]
  have e2 : checked_add a ((List.getD [a, a] 1 0 * 1) % WORD) = none := by
    rw [show List.getD [a, a] 1 0 = a from rfl, Nat.mul_one, Nat.mod_eq_of_lt h1,
      checked_add, if_neg h2]
  have hacc : writeAccum [a, a] [a, a] [(1, 0), (1, 1)] 0 0 = none := by
    simp only [writeAccum, e1, e2]
  rw [write]
  rw [show (([1, 1] : List Nat).zip (List.range'
      (PerfectHashState.new [a, a] [a, a] n m).i
      ((PerfectHashState.new [a, a] [a, a] n m).maxLength -
        (PerfectHashState.new [a, a] [a, a] n m).i))) = [(1, 0), (1, 1)] from rfl]
  rw [show (PerfectHashState.new [a, a] [a, a] n m).t1 = [a, a] from rfl,
    show (PerfectHashState.new [a, a] [a, a] n m).t2 = [a, a] from rfl,
    show (PerfectHashState.new [a, a] [a, a] n m).u = 0 from rfl,
    show (PerfectHashState.new [a, a] [a, a] n m).v = 0 from rfl, hacc]

/-- C3 (code bug): the accumulator does not accumulate modulo `n`; it
accumulates the full sums with `checked_add(..).expect("should not
overflow")`, which fails the task when the unreduced sum reaches the
machine word.  With `t1 = t2 = [2^63, 2^63]` and the two-byte key
`[1, 1]` the second addition is `2^63 + 2^63 = 2^64` and the program
aborts (modelled: `write` returns `none`), for every `n` and `m`. -/
theorem C3_overflow_abort (n m : Nat) :
    write (PerfectHashState.new [2 ^ 63, 2 ^ 63] [2 ^ 63, 2 ^ 63] n m) [1, 1] = none :=
  write_overflow_pair (2 ^ 63) n m (by norm_num [WORD]) (by norm_num [WORD])

/-- C8: the bucket count used by construction is `n = 2*m + m/12`
(integer division); for the three-key input it is 6. -/
theorem C8_bucket_count :
    (∀ keys : List (List Nat), newN keys = 2 * keys.length + keys.length / 12) ∧
      newN [[97], [98], [99]] = 6 :=
  ⟨fun _ => rfl, rfl⟩

/-- C9: for the empty known key set (`m = 0`, hence `n = 0`) the
construction loop succeeds on its first trial without any modular
reduction by zero (the embedding maps every `% 0` to a task failure and
the run still returns a value): the seed tables are empty, the edge list
is empty, and it reports one iteration.  The perfect table built for no
keys is empty, and each dispatcher operation on an empty perfect table
routes through the backup store only. -/
theorem C9_degenerate (rands : Nat → Nat) (t : Nat) :
    (∀ fuel, newLoop [] rands (fuel + 1) t = some ([], [], [], t + 1)) ∧
    buildTable 0 [] = [] ∧
    (∀ t1 t2 n m g backup k, dispatchGet t1 t2 n m g [] backup k = backupGet backup k) ∧
    (∀ t1 t2 n m g backup k v,
      dispatchInsert t1 t2 n m g [] backup k v =
        ([], (backupInsert backup k v).1, (backupInsert backup k v).2)) ∧
    (∀ t1 t2 n m g backup k,
      dispatchRemove t1 t2 n m g [] backup k =
        ([], (backupRemove backup k).1, (backupRemove backup k).2)) := by
  refine ⟨fun fuel => rfl, rfl, fun t1 t2 n m g backup k => rfl, ?_, ?_⟩
  · intro t1 t2 n m g backup k v
    rw [dispatchInsert]
    rw [show perfectHit t1 t2 n m g [] k = none from rfl]
  · intro t1 t2 n m g backup k
    rw [dispatchRemove]
    rw [show perfectHit t1 t2 n m g [] k = none from rfl]

/-! Exactness of the accumulator in the absence of overflow. -/

lemma writeAccum_exact (t1 t2 : List Nat) : ∀ (ps : List (Nat × Nat)) (u v : Nat),
    u + ((ps.map (fun bi => t1.getD bi.2 0 * bi.1)).sum) < WORD →
    v + ((ps.map (fun bi => t2.getD bi.2 0 * bi.1)).sum) < WORD →
    writeAccum t1 t2 ps u v =
      some (u + (ps.map (fun bi => t1.getD bi.2 0 * bi.1)).sum,
            v + (ps.map (fun bi => t2.getD bi.2 0 * bi.1)).sum) := by
  intro ps
  induction ps with
  | nil => intro u v _ _; simp [writeAccum]
  | cons bi rest ih =>
    obtain ⟨b, idx⟩ := bi
    intro u v h1 h2
    have hs1 : (((b, idx) :: rest).map (fun bi => t1.getD bi.2 0 * bi.1)).sum =
        t1.getD idx 0 * b + (rest.map (fun bi => t1.getD bi.2 0 * bi.1)).sum := by simp
    have hs2 : (((b, idx) :: rest).map (fun bi => t2.getD bi.2 0 * bi.1)).sum =
        t2.getD idx 0 * b + (rest.map (fun bi => t2.getD bi.2 0 * bi.1)).sum := by simp
    rw [hs1] at h1
    rw [hs2] at h2
    have hp1 : t1.getD idx 0 * b < WORD := by omega
    have hp2 : t2.getD idx 0 * b < WORD := by omega
    simp only [writeAccum]
    rw [show (t1.getD idx 0 * b) % WORD = t1.getD idx 0 * b from Nat.mod_eq_of_lt hp1]
    rw [show checked_add u (t1.getD idx 0 * b) = some (u + t1.getD idx 0 * b) by
      rw [checked_add, if_pos (by omega)]]
    rw [show (t2.getD idx 0 * b) % WORD = t2.getD idx 0 * b from Nat.mod_eq_of_lt hp2]
    rw [show checked_add v (t2.getD idx 0 * b) = some (v + t2.getD idx 0 * b) by
      rw [checked_add, if_pos (by omega)]]
    show writeAccum t1 t2 rest (u + t1.getD idx 0 * b) (v + t2.getD idx 0 * b) =
      some (u + (((b, idx) :: rest).map (fun bi => t1.getD bi.2 0 * bi.1)).sum,
            v + (((b, idx) :: rest).map (fun bi => t2.getD bi.2 0 * bi.1)).sum)
    rw [ih (u + t1.getD idx 0 * b) (v + t2.getD idx 0 * b) (by omega) (by omega)]
    rw [hs1, hs2]
    simp only [Option.some.injEq, Prod.mk.injEq]
    constructor <;> omega

lemma zip_map_sum (t bytes : List Nat) (L : Nat) :
    ((bytes.zip (List.range' 0 L)).map (fun bi => t.getD bi.2 0 * bi.1)).sum =
      ((List.range (min bytes.length L)).map (fun i => t.getD i 0 * bytes.getD i 0)).sum := by
  congr 1
  apply List.ext_getElem
  · simp
  · intro j h1 h2
    simp only [List.getElem_map, List.getElem_zip, List.getElem_range', List.getElem_range]
    have hj : j < bytes.length := by
      simp at h1
      omega
    rw [List.getD_eq_getElem bytes 0 hj]
    simp only [Nat.zero_add, Nat.one_mul]

lemma write_eq_of_accum (st : PerfectHashState) (bytes : List Nat) (p : Nat × Nat)
    (h : writeAccum st.t1 st.t2 (bytes.zip (List.range' st.i (st.maxLength - st.i)))
      st.u st.v = some p) :
    write st bytes =
      some { st with u := p.1, v := p.2, i := min (st.i + bytes.length) st.maxLength } := by
  rw [write, h]

lemma write_fresh (t1 t2 bytes : List Nat) (n m : Nat)
    (h1 : ((List.range (min bytes.length t1.length)).map
        (fun i => t1.getD i 0 * bytes.getD i 0)).sum < WORD)
    (h2 : ((List.range (min bytes.length t1.length)).map
        (fun i => t2.getD i 0 * bytes.getD i 0)).sum < WORD) :
    write (PerfectHashState.new t1 t2 n m) bytes =
      some { t1 := t1, t2 := t2, maxLength := t1.length, n := n, m := m,
             i := min bytes.length t1.length,
             u := ((List.range (min bytes.length t1.length)).map
               (fun i => t1.getD i 0 * bytes.getD i 0)).sum,
             v := ((List.range (min bytes.length t1.length)).map
               (fun i => t2.getD i 0 * bytes.getD i 0)).sum } := by
  have hz1 := zip_map_sum t1 bytes t1.length
  have hz2 := zip_map_sum t2 bytes t1.length
  have h1' : (0 : Nat) +
      ((bytes.zip (List.range' 0 t1.length)).map (fun bi => t1.getD bi.2 0 * bi.1)).sum <
      WORD := by
    rw [Nat.zero_add, hz1]
    exact h1
  have h2' : (0 : Nat) +
      ((bytes.zip (List.range' 0 t1.length)).map (fun bi => t2.getD bi.2 0 * bi.1)).sum <
      WORD := by
    rw [Nat.zero_add, hz2]
    exact h2
  have hacc := writeAccum_exact t1 t2 (bytes.zip (List.range' 0 t1.length)) 0 0 h1' h2'
  have hw := write_eq_of_accum (PerfectHashState.new t1 t2 n m) bytes
    (0 + ((bytes.zip (List.range' 0 t1.length)).map (fun bi => t1.getD bi.2 0 * bi.1)).sum,
     0 + ((bytes.zip (List.range' 0 t1.length)).map (fun bi => t2.getD bi.2 0 * bi.1)).sum)
    hacc
  rw [hw]
  show some (PerfectHashState.mk t1 t2 t1.length n m (min (0 + bytes.length) t1.length)
      (0 + ((bytes.zip (List.range' 0 t1.length)).map
        (fun bi => t1.getD bi.2 0 * bi.1)).sum)
      (0 + ((bytes.zip (List.range' 0 t1.length)).map
        (fun bi => t2.getD bi.2 0 * bi.1)).sum)) = _
  rw [Nat.zero_add, Nat.zero_add, Nat.zero_add, hz1, hz2]

/-- C5 counterexample: the hash accumulator does not satisfy the claimed
formula for every displacement table: with `t1 = [2^63]`, byte string
`[2]` and `n = 3`, the product `2^63 * 2` wraps silently at the machine
word and the code computes `f1 = 0`, while the claimed formula
`(Σ t[i]·byte_i) mod n` gives `2^64 mod 3 = 1`. -/
theorem C5_counterexample :
    ((write (PerfectHashState.new [2 ^ 63] [0] 3 1) [2]).bind PerfectHashState.get_u) =
      some 0 ∧
    specAccumulator [2 ^ 63] [2] 3 = 1 ∧ (0 : Nat) ≠ 1 :=
  ⟨by decide, by decide, by decide⟩

/-- C5 (amended): provided `n > 0`, the two tables have the same length
`L`, and the true (unwrapped) sums stay below the machine word `2^64`,
the accumulator computes exactly `h = (Σ t[i]·byte_i) mod n` over the
first `min(len, L)` bytes for each table, and the resulting `f1`, `f2`
both lie in `[0, n)`. -/
theorem C5_amended (t1 t2 bytes : List Nat) (n m : Nat)
    (hn : 0 < n) (hlen : t2.length = t1.length)
    (h1 : ((List.range (min bytes.length t1.length)).map
        (fun i => t1.getD i 0 * bytes.getD i 0)).sum < WORD)
    (h2 : ((List.range (min bytes.length t1.length)).map
        (fun i => t2.getD i 0 * bytes.getD i 0)).sum < WORD) :
    ∃ st, write (PerfectHashState.new t1 t2 n m) bytes = some st ∧
      st.get_u = some (specAccumulator t1 bytes n) ∧
      st.get_v = some (specAccumulator t2 bytes n) ∧
      specAccumulator t1 bytes n < n ∧ specAccumulator t2 bytes n < n := by
  refine ⟨_, write_fresh t1 t2 bytes n m h1 h2, ?_, ?_, Nat.mod_lt _ hn, Nat.mod_lt _ hn⟩
  · rw [PerfectHashState.get_u]
    rw [if_neg (Nat.pos_iff_ne_zero.mp hn)]
    rfl
  · rw [PerfectHashState.get_v]
    rw [if_neg (Nat.pos_iff_ne_zero.mp hn)]
    rw [specAccumulator, hlen]

/-- C5 (amended), witnessed at `t1 = [1]`, `t2 = [2]`, bytes `[3]`,
`n = 5`. -/
theorem C5_amended_witness :
    (0 < 5 ∧ ([2] : List Nat).length = ([1] : List Nat).length ∧
      ((List.range (min ([3] : List Nat).length ([1] : List Nat).length)).map
        (fun i => ([1] : List Nat).getD i 0 * ([3] : List Nat).getD i 0)).sum < WORD ∧
      ((List.range (min ([3] : List Nat).length ([1] : List Nat).length)).map
        (fun i => ([2] : List Nat).getD i 0 * ([3] : List Nat).getD i 0)).sum < WORD) ∧
    (∃ st, write (PerfectHashState.new [1] [2] 5 1) [3] = some st ∧
      st.get_u = some (specAccumulator [1] [3] 5) ∧
      st.get_v = some (specAccumulator [2] [3] 5) ∧
      specAccumulator [1] [3] 5 < 5 ∧ specAccumulator [2] [3] 5 < 5) :=
  ⟨⟨by decide, by decide, by decide, by decide⟩,
    C5_amended [1] [2] [3] 5 1 (by decide) (by decide) (by decide) (by decide)⟩

lemma genTableFrom_some {rands : Nat → Nat} {n : Nat} (hn : n ≠ 0) :
    ∀ m start, ∃ t, genTableFrom rands n m start = some t ∧ t.length = m := by
  intro m
  induction m with
  | zero => intro start; exact ⟨[], rfl, rfl⟩
  | succ mm ih =>
    intro start
    obtain ⟨t, ht, hl⟩ := ih (start + 1)
    refine ⟨rands start % n :: t, ?_, by simp [hl]⟩
    rw [genTableFrom, if_neg hn, ht]

/-- C4 (code bug): `gen_table(&rng, n, m)` is called with the count `m`
(the number of keys), not `L` (the maximum key byte length); the
`max_length` binding computed at perfect.rs lines 106-110 is never used.
Each generated table has length `m`; on the single-key input `"abc"` the
computed maximum byte length is 3 but the generated table has length 1,
so hashing is truncated after 1 byte.  (The tables are indeed freshly
regenerated on every retry; see the loop equation in C6's theorem.) -/
theorem C4_table_length (rands : Nat → Nat) (start n m : Nat) (hn : n ≠ 0) :
    (∃ t, genTableFrom rands n m start = some t ∧ t.length = m) ∧
    newMaxLength [[97, 98, 99]] = some 3 ∧
    (genTableFrom (fun _ => 0) (newN [[97, 98, 99]])
        ([[97, 98, 99]] : List (List Nat)).length 0).map List.length = some 1 ∧
    (1 : Nat) ≠ 3 :=
  ⟨genTableFrom_some hn m start, by decide, by decide, by decide⟩

/-- C4, witnessed at `n = 2`, `m = 1`. -/
theorem C4_table_length_witness :
    ((2 : Nat) ≠ 0) ∧
    ((∃ t, genTableFrom (fun _ => 0) 2 1 0 = some t ∧ t.length = 1) ∧
      newMaxLength [[97, 98, 99]] = some 3 ∧
      (genTableFrom (fun _ => 0) (newN [[97, 98, 99]])
          ([[97, 98, 99]] : List (List Nat)).length 0).map List.length = some 1 ∧
      (1 : Nat) ≠ 3) :=
  ⟨by decide, C4_table_length (fun _ => 0) 0 2 1 (by decide)⟩

lemma newTrial_some {keys : List (List Nat)} {rands : Nat → Nat} {t : Nat}
    {t1 t2 : List Nat} {es : List (Nat × Nat × Unit)}
    (h : newTrial keys rands t = some (t1, t2, es)) :
    trialEdges t1 t2 (newN keys) keys.length keys = some es := by
  rw [newTrial] at h
  cases h1 : genTableFrom rands (newN keys) keys.length (2 * keys.length * t) with
  | none => simp only [h1] at h; exact Option.noConfusion h
  | some a =>
    simp only [h1] at h
    cases h2 : genTableFrom rands (newN keys) keys.length
        (2 * keys.length * t + keys.length) with
    | none => simp only [h2] at h; exact Option.noConfusion h
    | some b =>
      simp only [h2] at h
      cases h3 : trialEdges a b (newN keys) keys.length keys with
      | none => simp only [h3] at h; exact Option.noConfusion h
      | some es' =>
        simp only [h3] at h
        injection h with h'
        simp only [Prod.mk.injEq] at h'
        obtain ⟨ha, hb, hes⟩ := h'
        rw [← ha, ← hb, ← hes]
        exact h3

lemma trialEdges_pair {t1 t2 : List Nat} {n m : Nat} {k : List Nat}
    {es : List (Nat × Nat × Unit)}
    (h : trialEdges t1 t2 n m [k, k] = some es) :
    ∃ p : Nat × Nat, es = [(p.1, p.2, ()), (p.1, p.2, ())] := by
  rw [trialEdges] at h
  cases hp : hashPair t1 t2 n m k with
  | none => simp only [hp] at h; exact Option.noConfusion h
  | some p =>
    simp only [hp] at h
    cases hq : trialEdges t1 t2 n m [k] with
    | none => simp only [hq] at h; exact Option.noConfusion h
    | some rest =>
      simp only [hq] at h
      rw [trialEdges] at hq
      simp only [hp] at hq
      rw [show trialEdges t1 t2 n m [] = some [] from rfl] at hq
      injection hq with hq'
      injection h with h'
      refine ⟨p, ?_⟩
      rw [← h', ← hq']

lemma isAcyclic_double (a b : Nat) :
    isAcyclicSpec (pairsOf [(a, b, ()), (a, b, ())]) = false := by
  have hd : hasDupPairB (pairsOf [(a, b, ()), (a, b, ())]) = true := by
    show hasDupPairB [(a, b), (a, b)] = true
    rw [hasDupPairB]
    simp
  rw [isAcyclicSpec, hd]
  simp

/-- C2 (code bug): the retry loop (perfect.rs lines 126-148) has no
maximum-attempts check and the crate has no ConstructionExhausted error:
`iters` is only logged.  For the key set `[k, k]` (two equal keys) every
trial produces two identical `(f1, f2)` pairs, a duplicate edge, so
every trial is rejected and the loop never exits: for every iteration
bound `fuel` and every random stream the embedded loop has not returned
a value (and no error is ever surfaced to the caller). -/
theorem C2_unbounded_loop (k : List Nat) (rands : Nat → Nat) :
    ∀ fuel t, newLoop [k, k] rands fuel t = none := by
  intro fuel
  induction fuel with
  | zero => intro t; rfl
  | succ fuel ih =>
    intro t
    rw [newLoop]
    cases htr : newTrial [k, k] rands t with
    | none => rfl
    | some trip =>
      obtain ⟨t1, t2, es⟩ := trip
      have hes := newTrial_some htr
      obtain ⟨p, rfl⟩ := trialEdges_pair hes
      show (if isAcyclicSpec (pairsOf [(p.1, p.2, ()), (p.1, p.2, ())]) = true
        then some (t1, t2, [(p.1, p.2, ()), (p.1, p.2, ())], t + 1)
        else newLoop [k, k] rands fuel (t + 1)) = none
      rw [isAcyclic_double]
      simp only [Bool.false_eq_true, if_false]
      exact ih (t + 1)

/-- C6: a construction trial is rejected exactly when the built key
graph has (a) a cycle among non-isolated vertices or (b) a duplicate
unordered vertex pair for two different keys (the trial's `is_acyclic`
test is modelled from the spec, as the graph crate is external to this
repository); a rejected trial makes the loop retry at the next trial
index, whose tables are freshly generated from unconsumed positions of
the random stream, and an accepted trial ends the loop with the trial's
tables and graph. -/
theorem C6_reject_iff (keys : List (List Nat)) (rands : Nat → Nat) (t : Nat)
    (t1 t2 : List Nat) (es : List (Nat × Nat × Unit))
    (hT : newTrial keys rands t = some (t1, t2, es)) :
    (isAcyclicSpec (pairsOf es) = false ↔
      (cycleB (pairsOf es) = true ∨ hasDupPairB (pairsOf es) = true)) ∧
    (isAcyclicSpec (pairsOf es) = false →
      ∀ fuel, newLoop keys rands (fuel + 1) t = newLoop keys rands fuel (t + 1)) ∧
    (isAcyclicSpec (pairsOf es) = true →
      ∀ fuel, newLoop keys rands (fuel + 1) t = some (t1, t2, es, t + 1)) := by
  refine ⟨?_, ?_, ?_⟩
  · rw [isAcyclicSpec]
    cases cycleB (pairsOf es) <;> cases hasDupPairB (pairsOf es) <;> simp
  · intro hrej fuel
    rw [newLoop]
    simp only [hT, hrej]
    rfl
  · intro hacc fuel
    rw [newLoop]
    simp only [hT, hacc]
    rfl

/-- C6, witnessed on a rejected trial: two equal keys, whose single
trial builds two self-loop edges at vertex 1. -/
theorem C6_reject_iff_witness :
    newTrial [[97], [97]] (fun _ => 1) 0 =
      some ([1, 1], [1, 1], [(1, 1, ()), (1, 1, ())]) ∧
    ((isAcyclicSpec (pairsOf [(1, 1, ()), (1, 1, ())]) = false ↔
      (cycleB (pairsOf [(1, 1, ()), (1, 1, ())]) = true ∨
        hasDupPairB (pairsOf [(1, 1, ()), (1, 1, ())]) = true)) ∧
    (isAcyclicSpec (pairsOf [(1, 1, ()), (1, 1, ())]) = false →
      ∀ fuel, newLoop [[97], [97]] (fun _ => 1) (fuel + 1) 0 =
        newLoop [[97], [97]] (fun _ => 1) fuel 1) ∧
    (isAcyclicSpec (pairsOf [(1, 1, ()), (1, 1, ())]) = true →
      ∀ fuel, newLoop [[97], [97]] (fun _ => 1) (fuel + 1) 0 =
        some ([1, 1], [1, 1], [(1, 1, ()), (1, 1, ())], 1))) :=
  ⟨by decide, C6_reject_iff [[97], [97]] (fun _ => 1) 0 [1, 1] [1, 1]
    [(1, 1, ()), (1, 1, ())] (by decide)⟩

lemma pair_mem_verts {es : List (Nat × Nat)} {q : Nat × Nat} (h : q ∈ es) :
    q.1 ∈ vertsOf es ∧ q.2 ∈ vertsOf es := by
  constructor <;>
  · rw [vertsOf, List.mem_dedup, List.mem_flatMap]
    exact ⟨q, h, by simp⟩

lemma trialEdges_get {t1 t2 : List Nat} {n m : Nat} :
    ∀ (keys : List (List Nat)) (es : List (Nat × Nat × Unit)),
      trialEdges t1 t2 n m keys = some es →
      ∀ j (hj : j < keys.length), ∃ p : Nat × Nat,
        hashPair t1 t2 n m (keys.get ⟨j, hj⟩) = some p ∧
        es.getD j (0, 0, ()) = (p.1, p.2, ()) := by
  intro keys
  induction keys with
  | nil => intro es h j hj; exact absurd hj (by simp)
  | cons k ks ih =>
    intro es h j hj
    rw [trialEdges] at h
    cases hp : hashPair t1 t2 n m k with
    | none => simp only [hp] at h; exact Option.noConfusion h
    | some p =>
      simp only [hp] at h
      cases ht : trialEdges t1 t2 n m ks with
      | none => simp only [ht] at h; exact Option.noConfusion h
      | some rest =>
        simp only [ht] at h
        injection h with h'
        cases j with
        | zero =>
          refine ⟨p, hp, ?_⟩
          rw [← h']
          rfl
        | succ j' =>
          have hj' : j' < ks.length := by simpa using hj
          obtain ⟨p', hp', he'⟩ := ih rest ht j' hj'
          refine ⟨p', hp', ?_⟩
          rw [← h']
          exact he'

/-- C7 counterexample: the builder passes the unit label `()` on every
`insert_directed_edge` call (perfect.rs line 139, `Graph<(), ()>`), so
the edge label does not carry the key's index: on the two-key input
below, the edges of key 0 and key 1 carry equal labels although the
keys' indices differ. -/
theorem C7_counterexample :
    trialEdges [1, 1] [2, 2] 4 2 [[97], [98]] = some [(1, 2, ()), (2, 0, ())] ∧
    (([(1, 2, ()), (2, 0, ())] : List (Nat × Nat × Unit)).getD 0 (0, 0, ())).2.2 =
      (([(1, 2, ()), (2, 0, ())] : List (Nat × Nat × Unit)).getD 1 (0, 0, ())).2.2 ∧
    (0 : Nat) ≠ 1 :=
  ⟨by decide, rfl, by decide⟩

/-- C7 (amended): during graph building, for each known key in order,
the builder inserts vertices `f1(key)` and `f2(key)` (both endpoints
are in the built graph's vertex set) and one edge between them; the
edge's label is the unit value `()`, so the key's index (its intended
slot number) is not carried on the edge and is recoverable only from
the insertion order (edge `j` of the edge list belongs to key `j`). -/
theorem C7_amended (t1 t2 : List Nat) (n m : Nat) (keys : List (List Nat))
    (es : List (Nat × Nat × Unit))
    (h : trialEdges t1 t2 n m keys = some es) :
    es.length = keys.length ∧
    ∀ j (hj : j < keys.length), ∃ p : Nat × Nat,
      hashPair t1 t2 n m (keys.get ⟨j, hj⟩) = some p ∧
      es.getD j (0, 0, ()) = (p.1, p.2, ()) ∧
      p.1 ∈ vertsOf (pairsOf es) ∧ p.2 ∈ vertsOf (pairsOf es) := by
  have hlen := trialEdges_length keys es h
  refine ⟨hlen, ?_⟩
  intro j hj
  obtain ⟨p, hp, he⟩ := trialEdges_get keys es h j hj
  have hjes : j < es.length := by rw [hlen]; exact hj
  have hmem : (p.1, p.2, ()) ∈ es := by
    rw [← he, List.getD_eq_getElem es (0, 0, ()) hjes]
    exact List.getElem_mem hjes
  have hpm : (p.1, p.2) ∈ pairsOf es := by
    rw [pairsOf]
    exact List.mem_map_of_mem _ hmem
  rcases pair_mem_verts hpm with ⟨m1, m2⟩
  exact ⟨p, hp, he, m1, m2⟩

/-- C7 (amended), witnessed on the two-key input. -/
theorem C7_amended_witness :
    trialEdges [1, 1] [2, 2] 4 2 [[97], [98]] = some [(1, 2, ()), (2, 0, ())] ∧
    (([(1, 2, ()), (2, 0, ())] : List (Nat × Nat × Unit)).length =
      ([[97], [98]] : List (List Nat)).length ∧
    ∀ j (hj : j < ([[97], [98]] : List (List Nat)).length), ∃ p : Nat × Nat,
      hashPair [1, 1] [2, 2] 4 2 (([[97], [98]] : List (List Nat)).get ⟨j, hj⟩) = some p ∧
      ([(1, 2, ()), (2, 0, ())] : List (Nat × Nat × Unit)).getD j (0, 0, ()) =
        (p.1, p.2, ()) ∧
      p.1 ∈ vertsOf (pairsOf [(1, 2, ()), (2, 0, ())]) ∧
      p.2 ∈ vertsOf (pairsOf [(1, 2, ()), (2, 0, ())])) :=
  ⟨by decide, C7_amended [1, 1] [2, 2] 4 2 [[97], [98]]
    [(1, 2, ()), (2, 0, ())] (by decide)⟩

end Perfect
